import Mathlib

/-!
Verification of the branch-reconciliation engine of git-garden.

The definitions below are a shallow embedding of `src/git_garden/garden.py`
(the `_main` function and its helpers).  Branch-listing lines are modelled
as `List Char`; the external git tool is modelled as an environment `Env`
recording the outcome of each command the pass issues.  The per-repository
pass is embedded as a state machine producing a trace of events (commands
issued and messages logged) together with an optional uncaught Python
error, so that both the command-ordering invariants and the crash
behaviours of the script can be stated and settled.
-/

namespace GitGarden

/-- Whitespace characters recognised by Python `str.split` with no
separator argument. -/
def isWS (c : Char) : Bool :=
  c = ' ' || c = '\t' || c = '\n' || c = '\r' || c = '\x0b' || c = '\x0c'

/-- The single-quote character that the listing format argument of
garden.py line 174 wraps around every listing line: the format string is
the three field specifiers %(refname:short), %(upstream:short) and
%(upstream:track), blank-separated, enclosed in single quotes. -/
def quoteChar : Char := Char.ofNat 39

/-- First whitespace-separated token of a line: Python `line.split()[0]`.
Total version returning `[]` on a whitespace-only line; the caller
`stepBranch` raises the corresponding index error explicitly in that
case. -/
def firstToken (l : List Char) : List Char :=
  (l.dropWhile isWS).takeWhile (fun c => !(isWS c))

/-- Python `s.replace(quote, empty, count 1)`: remove only the first
occurrence of the quote character (garden.py line 211). -/
def removeFirstQuote : List Char → List Char
  | [] => []
  | c :: cs => if c = quoteChar then cs else c :: removeFirstQuote cs

/-- Field `branch_name` of the per-branch loop:
`branch.split()[0].replace(quote, empty, 1)` (garden.py line 211). -/
def branchNameOf (l : List Char) : List Char :=
  removeFirstQuote (firstToken l)

/-- Does `l` start with the pattern `p`? -/
def listStartsWith : List Char → List Char → Bool
  | [], _ => true
  | _ :: _, [] => false
  | p :: ps, c :: cs => p = c && listStartsWith ps cs

/-- Does the pattern occur as a contiguous substring of `l`?
This models the Python `in` operator on strings. -/
def containsSub (pat : List Char) : List Char → Bool
  | [] => pat.isEmpty
  | c :: cs => listStartsWith pat (c :: cs) || containsSub pat (cs)

/-- A local-listing line exactly as produced by the quoted listing format
of garden.py lines 173-174: the three fields (short refname, short
upstream, upstream track) separated by single blanks, the whole line
wrapped in single quotes. -/
def mkListingLine (name upstream track : List Char) : List Char :=
  quoteChar :: (name ++ ' ' :: (upstream ++ ' ' :: (track ++ [quoteChar])))

/-- One scan of the root-branch search (garden.py lines 179-196): walk the
listing in order, skip empty lines, return the mapped root name on the
first line whose first token equals one of the two sought tokens. -/
def scanForRoot (masterTok mainTok : List Char) : List (List Char) → Option (List Char)
  | [] => none
  | b :: rest =>
    if b = [] then scanForRoot masterTok mainTok rest
    else if firstToken b = masterTok then some "master".data
    else if firstToken b = mainTok then some "main".data
    else scanForRoot masterTok mainTok rest

/-- Root-branch resolution (garden.py lines 178-196, also
`GitGarden.find_root_branch`): scan the remote listing for
`origin/master` or `origin/main`; if neither occurs, scan the local
listing for `master` or `main`; otherwise resolution fails. -/
def findRootBranch (localBranches remoteBranches : List (List Char)) : Option (List Char) :=
  match scanForRoot "origin/master".data "origin/main".data remoteBranches with
  | some r => some r
  | none => scanForRoot "master".data "main".data localBranches

/-- Root-branch resolver stated from the specification text (section 4.2),
for comparison with `findRootBranch`: take the first remote ref whose
short name is exactly `origin/master` or `origin/main` and map it; if
none, take the first local branch name that is `master` or `main`. -/
def resolveRootSpec (localBranches remoteBranches : List (List Char)) : Option (List Char) :=
  match remoteBranches.find? (fun b =>
      decide (firstToken b = "origin/master".data) || decide (firstToken b = "origin/main".data)) with
  | some b => if firstToken b = "origin/master".data then some "master".data else some "main".data
  | none =>
    match localBranches.find? (fun b =>
        decide (firstToken b = "master".data) || decide (firstToken b = "main".data)) with
    | some b => if firstToken b = "master".data then some "master".data else some "main".data
    | none => none

/-- Branch classification outcomes of the per-branch if-chain. -/
inductive BranchClass
  | headMarker
  | localOnly
  | ahead
  | behind
  | gone
  | upToDate
deriving DecidableEq, Repr

/-- The classification chain of garden.py lines 214-273, with the first
matching condition winning.  Every condition is a substring test on the
raw listing line, exactly as in the source. -/
def classify (branch : List Char) : BranchClass :=
  if containsSub "HEAD".data branch then .headMarker
  else if !(containsSub "origin".data branch) then .localOnly
  else if containsSub "[ahead".data branch then .ahead
  else if containsSub "[behind".data branch then .behind
  else if containsSub "[gone]".data branch then .gone
  else .upToDate

/-- Refs deleted by the purge loop (garden.py lines 150-155): every
enumerated ref except the bare `origin` sentinel (the rendering of the
synthetic `origin/HEAD` entry under `--format. %(refname:short)`) and
empty lines.  Each surviving ref is deleted by its own command. -/
def purgeDeletes (listing : List (List Char)) : List (List Char) :=
  listing.filter (fun b => !(decide (b = "origin".data)) && !(b.isEmpty))

/-- Trace events of one run: every git command issued by the pass together
with its outcome, and the log messages that drive the user-visible
behaviour.  `deleteLocalCmd` records, besides the branch named in the
command, which branch the repository actually had checked out at the
moment the command was issued. -/
inductive Event
  | deleteRemoteCmd (ref : List Char)
  | fetchCmd (prune : Bool)
  | logHead (line : List Char)
  | logLocalOnly (line : List Char)
  | logAhead (name : List Char)
  | logBehind (name : List Char)
  | logGone (name : List Char)
  | logUpToDate (name : List Char)
  | ffPull (ok : Bool)
  | ffFetchRoot (root : List Char) (ok : Bool)
  | logFFFail (name : List Char)
  | statusCheck (dirty : Bool)
  | warnDirtySkip (name : List Char)
  | switchCmd (target : List Char) (ok : Bool)
  | logSwitchFail (name : List Char)
  | deleteLocalCmd (name : List Char) (checkedOut : Option (List Char)) (ok : Bool)
  | logDelFail (name : List Char)
  | warnNoCurrent
  | warnNoRoot
  | warnFFSkipped
  | warnDeleteSkipped
deriving DecidableEq, Repr

/-- Uncaught Python exceptions the script can raise. -/
inductive PyErr
  | indexErr
  | typeErr
  | nameErr
  | processErr
deriving DecidableEq, Repr

/-- The command-line policy toggles consumed by `_main`. -/
structure Args where
  purge : Bool
  noFetch : Bool
  noPrune : Bool
  ff : Bool
  delete : Bool
  remote : Bool

/-- Outcomes of the external git commands for one repository, fixed for
the duration of its pass.  `localListing` is `none` when the
branch-enumeration `check_output` call raises. -/
structure Env where
  purgeListing : List (List Char)
  fetchStderr : List Char
  localListing : Option (List (List Char))
  remoteListing : List (List Char)
  curBranch : Option (List Char)
  dirty : Bool
  switchOK : List Char → Bool
  delOK : List Char → Bool
  pullOK : Bool
  fetchRootOK : Bool

/-- Does the fetch stderr carry the skip-repository sentinel
(garden.py line 169)? -/
def notARepo (e : Env) : Bool :=
  listStartsWith "fatal: not a git repository".data e.fetchStderr

/-- Mutable state of one repository pass: the `current_branch` variable,
the branch git actually has checked out, whether `ff_result` has been
assigned so far in the run, and the local branches whose delete command
succeeded. -/
structure PassSt where
  cur : Option (List Char)
  checkedOut : Option (List Char)
  ffAssigned : Bool
  deleted : List (List Char)
deriving DecidableEq

/-- The local-branch delete call and its error reporting (garden.py lines
265-271).  On a non-zero exit the script logs the failure and then reads
`ff_result.stderr`; if `ff_result` was never assigned in the run this
read raises a `NameError`. -/
def issueDelete (e : Env) (st : PassSt) (name : List Char) (evs : List Event) :
    PassSt × List Event × Option PyErr :=
  let ok := e.delOK name
  let evs := evs ++ [.deleteLocalCmd name st.checkedOut ok]
  if ok then
    ({ st with deleted := name :: st.deleted }, evs, none)
  else if st.ffAssigned then
    (st, evs ++ [.logDelFail name], none)
  else
    (st, evs ++ [.logDelFail name], some .nameErr)

/-- The `[behind` arm of the per-branch chain (garden.py lines 221-239):
when fast-forward is requested and the branch is the resolved root, pull
with fast-forward only if the root is also the current branch, otherwise
fetch directly into the local root ref; a failure of either is logged and
the loop continues. -/
def behindStep (a : Args) (e : Env) (root : Option (List Char)) (st : PassSt)
    (name : List Char) : PassSt × List Event × Option PyErr :=
  if a.ff = true ∧ root = some name then
    if st.cur = root then
      ({ st with ffAssigned := true },
        .logBehind name :: .ffPull e.pullOK ::
          (if e.pullOK = true then [] else [.logFFFail name]), none)
    else
      ({ st with ffAssigned := true },
        .logBehind name :: .ffFetchRoot name e.fetchRootOK ::
          (if e.fetchRootOK = true then [] else [.logFFFail name]), none)
  else (st, [.logBehind name], none)

/-- The `[gone]` arm of the per-branch chain (garden.py lines 241-271):
with delete requested, a gone branch that is not current is deleted
directly; a gone branch that is current is first guarded by a fresh
dirty-tree check and a switch to the root branch.  With the root branch
unresolved the switch call passes `None` to `subprocess.run`, raising a
`TypeError`. -/
def goneStep (a : Args) (e : Env) (root : Option (List Char)) (st : PassSt)
    (name : List Char) : PassSt × List Event × Option PyErr :=
  if a.delete = true then
    if st.cur = some name then
      if e.dirty = true then
        (st, [.logGone name, .statusCheck true, .warnDirtySkip name], none)
      else
        match root with
        | none => (st, [.logGone name, .statusCheck false], some .typeErr)
        | some r =>
          if e.switchOK r = true then
            issueDelete e { st with cur := some r, checkedOut := some r } name
              [.logGone name, .statusCheck false, .switchCmd r true]
          else
            (st, [.logGone name, .statusCheck false, .switchCmd r false,
                  .logSwitchFail name], none)
    else
      issueDelete e st name [.logGone name]
  else (st, [.logGone name], none)

/-- One iteration of the per-branch loop (garden.py lines 210-273).  The
loop body first evaluates `branch.split()[0]`, which raises an
`IndexError` on a whitespace-only line, then runs the classification
chain. -/
def stepBranch (a : Args) (e : Env) (root : Option (List Char)) (st : PassSt)
    (branch : List Char) : PassSt × List Event × Option PyErr :=
  if firstToken branch = [] then (st, [], some .indexErr)
  else
    let name := branchNameOf branch
    match classify branch with
    | .headMarker => (st, [.logHead branch], none)
    | .localOnly => (st, [.logLocalOnly branch], none)
    | .ahead => (st, [.logAhead name], none)
    | .behind => behindStep a e root st name
    | .gone => goneStep a e root st name
    | .upToDate => (st, [.logUpToDate name], none)

/-- The per-branch loop over the local listing, in listing order.  An
uncaught Python error stops the loop (and, upstream, the whole run); the
events accumulated so far are kept in the trace. -/
def processBranches (a : Args) (e : Env) (root : Option (List Char)) :
    PassSt → List (List Char) → PassSt × List Event × Option PyErr
  | st, [] => (st, [], none)
  | st, b :: bs =>
    let r := stepBranch a e root st b
    match r.2.2 with
    | some er => (r.1, r.2.1, some er)
    | none =>
      let rest := processBranches a e root r.1 bs
      (rest.1, r.2.1 ++ rest.2.1, rest.2.2)

/-- Commands issued by the purge phase (garden.py lines 143-155): one
delete command per enumerated, non-excluded remote ref. -/
def purgeEvents (a : Args) (e : Env) : List Event :=
  if a.purge = true then (purgeDeletes e.purgeListing).map Event.deleteRemoteCmd else []

/-- The fetch phase (garden.py lines 157-166). -/
def fetchEvents (a : Args) : List Event :=
  if a.noFetch = true then [] else [Event.fetchCmd (!a.noPrune)]

/-- Degraded-resolution warnings (garden.py lines 200-208). -/
def resolutionWarnings (a : Args) (root cur : Option (List Char)) : List Event :=
  (if cur.isNone then [Event.warnNoCurrent] else []) ++
  (if root.isNone then [Event.warnNoRoot] else []) ++
  (if root.isNone || cur.isNone then
    (if a.ff = true then [Event.warnFFSkipped] else []) ++
    (if a.delete = true then [Event.warnDeleteSkipped] else [])
   else [])

/-- Everything a pass does after the purge and fetch phases: skip the
repository on the not-a-repository sentinel, escalate a failed branch
enumeration as an uncaught exception, otherwise resolve the root branch,
emit the degraded-resolution warnings and run the per-branch loop.  The
trailing remote-only report loop (garden.py lines 275-281) only logs and
is outside every claim settled here, so it is not modelled. -/
def passTail (a : Args) (e : Env) (ffA : Bool) :
    List Event × Option PyErr × Option PassSt :=
  if !a.noFetch && notARepo e then
    ([], none, none)
  else
    match e.localListing with
    | none => ([], some .processErr, none)
    | some locals =>
      let root := findRootBranch locals e.remoteListing
      let cur := e.curBranch
      let st0 : PassSt := { cur := cur, checkedOut := cur, ffAssigned := ffA, deleted := [] }
      let res := processBranches a e root st0 locals
      (resolutionWarnings a root cur ++ res.2.1, res.2.2, some res.1)

/-- One repository pass of `_main` (garden.py lines 138-281), given the
command outcomes in `e`.  `ffA` records whether `ff_result` was assigned
in an earlier pass of the same run (the variable is local to `_main`, so
it persists across repositories). -/
def processPass (a : Args) (e : Env) (ffA : Bool) :
    List Event × Option PyErr × Option PassSt :=
  let t := passTail a e ffA
  (purgeEvents a e ++ fetchEvents a ++ t.1, t.2.1, t.2.2)

/-- The `ff_result`-assigned flag carried out of a pass. -/
def ffAfter (ffA : Bool) : Option PassSt → Bool
  | none => ffA
  | some st => st.ffAssigned

/-- The outer directory loop of `_main`: repositories are processed
sequentially and an uncaught Python exception aborts the whole run, so
the directories after the failing one are never processed. -/
def runMain (a : Args) : Bool → List Env → List (List Event) × Option PyErr
  | _, [] => ([], none)
  | ffA, e :: es =>
    let r := processPass a e ffA
    match r.2.1 with
    | some er => ([r.1], some er)
    | none =>
      let rest := runMain a (ffAfter ffA r.2.2) es
      (r.1 :: rest.1, rest.2)

/-! Concrete repositories and policies used to instantiate the theorems. -/

/-- Policy with only the delete toggle enabled. -/
def argsDelete : Args :=
  { purge := false, noFetch := false, noPrune := false,
    ff := false, delete := true, remote := false }

/-- Policy with only the fast-forward toggle enabled. -/
def argsFF : Args :=
  { purge := false, noFetch := false, noPrune := false,
    ff := true, delete := false, remote := false }

/-- Policy with only the purge toggle enabled. -/
def argsPurge : Args :=
  { purge := true, noFetch := false, noPrune := false,
    ff := false, delete := false, remote := false }

/-- Listing line of a branch `feat` whose upstream `origin/feat` is gone. -/
def goneLineEx : List Char := mkListingLine "feat".data "origin/feat".data "[gone]".data

/-- Listing line of a local branch `main` that tracks `origin/dev`, whose
upstream is gone, in a repository where `origin/main` still exists. -/
def goneRootLineEx : List Char := mkListingLine "main".data "origin/dev".data "[gone]".data

/-- Repository whose root branch cannot be resolved (no `master`/`main`
anywhere), with the gone branch `feat` not checked out. -/
def envNoRoot : Env :=
  { purgeListing := [], fetchStderr := [], localListing := some [goneLineEx],
    remoteListing := ["  origin/feat".data], curBranch := some "other".data,
    dirty := false, switchOK := fun _ => true, delOK := fun _ => true,
    pullOK := true, fetchRootOK := true }

/-- Repository whose checked-out branch `main` is itself the resolved root
and has a gone upstream; switching to `main` while on `main` succeeds
vacuously, deleting the checked-out branch fails. -/
def envSelfSwitch : Env :=
  { purgeListing := [], fetchStderr := [], localListing := some [goneRootLineEx],
    remoteListing := ["  origin/main".data], curBranch := some "main".data,
    dirty := false, switchOK := fun b => b = "main".data, delOK := fun _ => false,
    pullOK := true, fetchRootOK := true }

/-- Repository where the gone branch `feat` is checked out on a clean tree
but the switch to the root branch fails. -/
def envSwitchFail : Env :=
  { purgeListing := [], fetchStderr := [], localListing := some [goneLineEx],
    remoteListing := ["  origin/main".data], curBranch := some "feat".data,
    dirty := false, switchOK := fun _ => false, delOK := fun _ => true,
    pullOK := true, fetchRootOK := true }

/-- Healthy repository where the gone branch `feat` is not checked out and
every command succeeds. -/
def envDeleteOK : Env :=
  { purgeListing := [], fetchStderr := [], localListing := some [goneLineEx],
    remoteListing := ["  origin/main".data], curBranch := some "main".data,
    dirty := false, switchOK := fun _ => true, delOK := fun _ => true,
    pullOK := true, fetchRootOK := true }

/-- Repository where the gone branch `feat` is not checked out and its
delete command fails, in a run with no prior fast-forward attempt. -/
def envDelFail : Env :=
  { purgeListing := [], fetchStderr := [], localListing := some [goneLineEx],
    remoteListing := ["  origin/main".data], curBranch := some "main".data,
    dirty := false, switchOK := fun _ => true, delOK := fun _ => false,
    pullOK := true, fetchRootOK := true }

/-- Repository whose branch enumeration fails. -/
def envListFail : Env :=
  { purgeListing := [], fetchStderr := [], localListing := none,
    remoteListing := [], curBranch := none, dirty := false,
    switchOK := fun _ => false, delOK := fun _ => true,
    pullOK := true, fetchRootOK := true }

/-- Repository with root `main` behind by two commits and checked out. -/
def envBehind : Env :=
  { purgeListing := [], fetchStderr := [],
    localListing := some [mkListingLine "main".data "origin/main".data "[behind 2]".data],
    remoteListing := ["  origin/main".data], curBranch := some "main".data,
    dirty := false, switchOK := fun _ => true, delOK := fun _ => true,
    pullOK := true, fetchRootOK := true }

/-- Repository carrying remote refs to purge, including the rendering of
the synthetic `origin/HEAD` entry (the bare `origin` line) and an empty
line. -/
def envPurge : Env :=
  { purgeListing := ["origin".data, "origin/main".data, "origin/feat".data, []],
    fetchStderr := [], localListing := some [], remoteListing := [],
    curBranch := some "main".data, dirty := false,
    switchOK := fun _ => true, delOK := fun _ => true,
    pullOK := true, fetchRootOK := true }

/-- Final pass state of the healthy delete scenario. -/
def stAfterDeleteOK : PassSt :=
  { cur := some "main".data, checkedOut := some "main".data,
    ffAssigned := false, deleted := ["feat".data] }

/-- Listing line of the root branch `main` behind by two commits. -/
def behindRootLineEx : List Char :=
  mkListingLine "main".data "origin/main".data "[behind 2]".data

/-- Initial pass state of the behind scenario: `main` is checked out. -/
def stBehind0 : PassSt :=
  { cur := some "main".data, checkedOut := some "main".data,
    ffAssigned := false, deleted := [] }

/-- A branch name with an interior quote character. -/
def quotedNameEx : List Char := 'i' :: 't' :: quoteChar :: ['s']

/-! Helper lemmas about the parsing primitives. -/

theorem takeWhile_nonWS_append (name rest : List Char)
    (h : ∀ c ∈ name, isWS c = false) :
    (name ++ ' ' :: rest).takeWhile (fun c => !(isWS c)) = name := by
  induction name with
  | nil => simp [List.takeWhile_cons, show isWS ' ' = true from by decide]
  | cons c cs ih =>
    have hc : isWS c = false := h c (List.mem_cons_self c cs)
    simp only [List.cons_append, List.takeWhile_cons, hc]
    simp [ih (fun d hd => h d (List.mem_cons_of_mem c hd))]

theorem firstToken_mkListingLine (name upstream track : List Char)
    (h : ∀ c ∈ name, isWS c = false) :
    firstToken (mkListingLine name upstream track) = quoteChar :: name := by
  have hq : isWS quoteChar = false := by decide
  simp only [firstToken, mkListingLine, List.dropWhile_cons, hq]
  simp only [Bool.false_eq_true, if_false, List.takeWhile_cons, hq, Bool.not_false, if_pos]
  rw [takeWhile_nonWS_append name _ h]

theorem removeFirstQuote_cons_quote (l : List Char) :
    removeFirstQuote (quoteChar :: l) = l := by
  simp [removeFirstQuote]

/-- Claim C8: the branch-name field of a listing line is recovered exactly:
only the single leading quote artifact of the quoted listing format is
stripped (Python replace with count one), so a branch name containing a
quote character anywhere is parsed to itself.  Git branch names contain no
whitespace, which is the only hypothesis. -/
theorem parsedBranchNamePreservesQuotes (name upstream track : List Char)
    (h : ∀ c ∈ name, isWS c = false) :
    branchNameOf (mkListingLine name upstream track) = name := by
  rw [branchNameOf, firstToken_mkListingLine name upstream track h,
    removeFirstQuote_cons_quote]

/-- Witness for C8 at the branch name `it.s` (with a quote character in
place of the dot) tracking a gone upstream. -/
theorem parsedBranchNamePreservesQuotes_app :
    branchNameOf (mkListingLine quotedNameEx "origin/x".data "[gone]".data) = quotedNameEx :=
  parsedBranchNamePreservesQuotes quotedNameEx "origin/x".data "[gone]".data (by decide)

/-- Claim C5 (amended): the first two rules of the classification chain:
a line containing the marker `HEAD` is classified as the head marker, and
a line whose text nowhere contains the substring `origin` (and no `HEAD`)
is classified local-only.  Upstream absence is detected by that substring
test on the whole line, not by inspecting the upstream field. -/
theorem noOriginLineClassifiedLocalOnly :
    (∀ l, containsSub "HEAD".data l = true → classify l = .headMarker) ∧
    (∀ l, containsSub "HEAD".data l = false → containsSub "origin".data l = false →
      classify l = .localOnly) := by
  constructor
  · intro l h
    simp [classify, h]
  · intro l h1 h2
    simp [classify, h1, h2]

/-- Witness for C5 (amended) at the no-upstream line of a branch `feature`. -/
theorem noOriginLineClassifiedLocalOnly_app :
    classify (mkListingLine "feature".data [] []) = .localOnly :=
  noOriginLineClassifiedLocalOnly.2 (mkListingLine "feature".data [] [])
    (by decide) (by decide)

/-- Counterexample to claim C5 as stated: the listing line of a branch
named `origin-fix` with no upstream token at all (both the upstream and
the tracking fields of the format are empty) is classified up-to-date,
not local-only, because the branch name itself contains the substring
`origin`. -/
theorem originNamedBranchMisclassified :
    classify (mkListingLine "origin-fix".data [] []) = .upToDate ∧
    BranchClass.upToDate ≠ BranchClass.localOnly := by
  constructor
  · decide
  · decide

theorem scanForRoot_eq_find (mt mn : List Char) (hmt : mt ≠ []) (hmn : mn ≠ [])
    (bs : List (List Char)) :
    scanForRoot mt mn bs =
      (match bs.find? (fun b =>
          decide (firstToken b = mt) || decide (firstToken b = mn)) with
       | some b => if firstToken b = mt then some "master".data else some "main".data
       | none => none) := by
  induction bs with
  | nil => rfl
  | cons b rest ih =>
    by_cases hb : b = []
    · subst hb
      have h1 : ¬ (firstToken ([] : List Char) = mt) := fun h => hmt h.symm
      have h2 : ¬ (firstToken ([] : List Char) = mn) := fun h => hmn h.symm
      simp only [scanForRoot, if_pos rfl, List.find?_cons, h1, h2, decide_eq_true_eq]
      simp only [decide_eq_true_eq] at ih ⊢
      simpa [h1, h2] using ih
    · by_cases h1 : firstToken b = mt
      · simp [scanForRoot, hb, h1, List.find?_cons]
      · by_cases h2 : firstToken b = mn
        · simp [scanForRoot, hb, h1, h2, List.find?_cons]
        · simp only [scanForRoot, hb, if_false, h1, h2, if_neg, List.find?_cons]
          simpa [h1, h2] using ih

/-- Claim C4: root-branch resolution agrees everywhere with the resolver
described by the specification (first remote ref whose short name is
exactly `origin/master` or `origin/main`, else first local `master` or
`main`, else absent), and the two concrete scenarios of the spec hold. -/
theorem findRootBranchMeetsSpec :
    (∀ localBranches remoteBranches,
       findRootBranch localBranches remoteBranches =
         resolveRootSpec localBranches remoteBranches) ∧
    findRootBranch [] ["  origin/main".data, "  origin/feature".data] = some "main".data ∧
    findRootBranch ["alpha".data, "beta".data] ["  origin/feature".data] = none := by
  refine ⟨?_, by decide, by decide⟩
  intro localBranches remoteBranches
  unfold findRootBranch resolveRootSpec
  rw [scanForRoot_eq_find _ _ (by decide) (by decide) remoteBranches,
    scanForRoot_eq_find _ _ (by decide) (by decide) localBranches]
  cases remoteBranches.find? (fun b =>
      decide (firstToken b = "origin/master".data) ||
      decide (firstToken b = "origin/main".data)) with
  | some b =>
    by_cases h : firstToken b = "origin/master".data <;> simp [h]
  | none =>
    cases localBranches.find? (fun b =>
        decide (firstToken b = "master".data) || decide (firstToken b = "main".data)) with
    | some b =>
      by_cases h : firstToken b = "master".data <;> simp [h]
    | none => rfl

/-- Claim C7: with purge enabled, the purge phase issues exactly one
delete command per enumerated remote ref, in enumeration order, never
batched: the command trace is the map of single-ref delete commands over
the enumerated listing filtered only by the two exclusions — the bare
`origin` sentinel (which is how the synthetic `origin/HEAD` entry is
rendered by the short-refname format used for the enumeration) and empty
lines.  The enumeration itself is consumed once: every pass trace starts
with this command block.  Per-occurrence counts are preserved, so no two
enumerated refs are merged into one command. -/
theorem purgeOneCommandPerRef (a : Args) (e : Env) (ffA : Bool)
    (hp : a.purge = true) :
    purgeEvents a e = (purgeDeletes e.purgeListing).map Event.deleteRemoteCmd ∧
    (∀ b, b ∈ purgeDeletes e.purgeListing ↔
       (b ∈ e.purgeListing ∧ b ≠ "origin".data ∧ b ≠ [])) ∧
    (∀ b : List Char, b ≠ "origin".data → b ≠ [] →
       (purgeDeletes e.purgeListing).count b = e.purgeListing.count b) ∧
    (∃ rest, (processPass a e ffA).1 = purgeEvents a e ++ rest) := by
  refine ⟨by simp [purgeEvents, hp], ?_, ?_, ?_⟩
  · intro b
    simp [purgeDeletes, List.mem_filter, List.isEmpty_iff, and_assoc]
  · intro b h1 h2
    apply List.count_filter
    simp [h1, List.isEmpty_iff, h2]
  · exact ⟨fetchEvents a ++ (passTail a e ffA).1, by simp [processPass]⟩

/-- Witness for C7 at a listing carrying the sentinel rendering of
`origin/HEAD`, two real refs and an empty line. -/
theorem purgeOneCommandPerRef_app :
    purgeEvents argsPurge envPurge =
      [Event.deleteRemoteCmd "origin/main".data, Event.deleteRemoteCmd "origin/feat".data] ∧
    ("origin/main".data ∈ purgeDeletes envPurge.purgeListing ↔
       ("origin/main".data ∈ envPurge.purgeListing ∧
        "origin/main".data ≠ "origin".data ∧ "origin/main".data ≠ [])) := by
  constructor
  · decide
  · exact (purgeOneCommandPerRef argsPurge envPurge false rfl).2.1 "origin/main".data

/-- Claim C9 (amended): a failed branch enumeration for a repository that
was not skipped by the not-a-repository sentinel raises an uncaught
exception, so the whole multi-repository run stops: exactly the failing
partial trace of the failing repository is produced and the remaining repositories are
never processed. -/
theorem listingFailureIsFatalForRun (a : Args) (e : Env) (es : List Env) (ffA : Bool)
    (hl : e.localListing = none) (hskip : a.noFetch = true ∨ notARepo e = false) :
    (runMain a ffA (e :: es)).2 = some .processErr ∧
    (runMain a ffA (e :: es)).1.length = 1 := by
  have hcond : (!a.noFetch && notARepo e) = false := by
    rcases hskip with h | h <;> simp [h]
  have hpass : (processPass a e ffA).2.1 = some .processErr := by
    simp [processPass, passTail, hcond, hl]
  constructor <;> simp [runMain, hpass]

/-- Witness for C9 (amended) at a two-repository run in which the first
enumeration fails. -/
theorem listingFailureIsFatalForRun_app :
    (runMain argsDelete false [envListFail, envDeleteOK]).2 = some .processErr ∧
    (runMain argsDelete false [envListFail, envDeleteOK]).1.length = 1 :=
  listingFailureIsFatalForRun argsDelete envListFail [envDeleteOK] false rfl
    (Or.inr (by decide))

/-- Counterexample to claim C9 as stated: a run over two repositories in
which the branch enumeration of the first repository fails produces only one
repository trace and an uncaught error — the run does not continue with
the second (healthy) repository. -/
theorem listingFailureAbortsRun :
    (runMain argsDelete false [envListFail, envDeleteOK]).2 = some .processErr ∧
    (runMain argsDelete false [envListFail, envDeleteOK]).1.length = 1 ∧
    (runMain argsDelete false [envDeleteOK]).1.length = 1 := by
  refine ⟨by decide, by decide, by decide⟩

/-! Facts relating classification outcomes to the substring tests of the
chain, and a non-emptiness fact about the first token. -/

theorem classify_gone_contains (l : List Char) (h : classify l = .gone) :
    containsSub "[gone]".data l = true := by
  unfold classify at h
  split at h
  · simp at h
  · split at h
    · simp at h
    · split at h
      · simp at h
      · split at h
        · simp at h
        · split at h
          · assumption
          · simp at h

theorem classify_behind_contains (l : List Char) (h : classify l = .behind) :
    containsSub "[behind".data l = true := by
  unfold classify at h
  split at h
  · simp at h
  · split at h
    · simp at h
    · split at h
      · simp at h
      · split at h
        · assumption
        · split at h <;> simp at h

theorem firstToken_ne_nil_of_containsSub (c : Char) (ps l : List Char)
    (hc : isWS c = false) (h : containsSub (c :: ps) l = true) :
    ¬ (firstToken l = []) := by
  induction l with
  | nil => simp [containsSub, List.isEmpty] at h
  | cons d ds ih =>
    rw [containsSub] at h
    simp only [Bool.or_eq_true] at h
    rcases h with h | h
    · rw [listStartsWith] at h
      simp only [Bool.and_eq_true, decide_eq_true_eq] at h
      obtain ⟨hcd, -⟩ := h
      subst hcd
      simp [firstToken, List.dropWhile_cons, hc, List.takeWhile_cons]
    · by_cases hd : isWS d = true
      · have := ih h
        simpa [firstToken, List.dropWhile_cons, hd] using this
      · simp only [Bool.not_eq_true] at hd
        simp [firstToken, List.dropWhile_cons, hd, List.takeWhile_cons]

/-! Facts about the delete call. -/

theorem issueDelete_events (e : Env) (st : PassSt) (name : List Char) (evs : List Event) :
    (issueDelete e st name evs).2.1 =
      evs ++ Event.deleteLocalCmd name st.checkedOut (e.delOK name) ::
        (if e.delOK name = true then [] else [Event.logDelFail name]) := by
  unfold issueDelete
  by_cases h : e.delOK name = true
  · simp [h]
  · by_cases h2 : st.ffAssigned = true <;> simp [h, h2]

theorem issueDelete_st (e : Env) (st : PassSt) (name : List Char) (evs : List Event) :
    (issueDelete e st name evs).1.cur = st.cur ∧
    (issueDelete e st name evs).1.checkedOut = st.checkedOut := by
  unfold issueDelete
  by_cases h : e.delOK name = true
  · simp [h]
  · by_cases h2 : st.ffAssigned = true <;> simp [h, h2]

theorem issueDelete_deleted_mono (e : Env) (st : PassSt) (name : List Char)
    (evs : List Event) (x : List Char) (hx : x ∈ st.deleted) :
    x ∈ (issueDelete e st name evs).1.deleted := by
  unfold issueDelete
  by_cases h : e.delOK name = true
  · simp [h, hx, List.mem_cons]
  · by_cases h2 : st.ffAssigned = true <;> simp [h, h2, hx]

theorem issueDelete_guarded (e : Env) (st : PassSt) (name : List Char) (evs : List Event) :
    name ∈ (issueDelete e st name evs).1.deleted ∨
    Event.logDelFail name ∈ (issueDelete e st name evs).2.1 := by
  unfold issueDelete
  by_cases h : e.delOK name = true
  · left; simp [h]
  · right; by_cases h2 : st.ffAssigned = true <;> simp [h, h2]

/-! Reduction of `stepBranch` to the two acting arms. -/

theorem stepBranch_gone (a : Args) (e : Env) (root : Option (List Char))
    (st : PassSt) (branch : List Char)
    (hne : ¬ (firstToken branch = [])) (h : classify branch = .gone) :
    stepBranch a e root st branch = goneStep a e root st (branchNameOf branch) := by
  simp [stepBranch, hne, h]

theorem stepBranch_behind (a : Args) (e : Env) (root : Option (List Char))
    (st : PassSt) (branch : List Char)
    (hne : ¬ (firstToken branch = [])) (h : classify branch = .behind) :
    stepBranch a e root st branch = behindStep a e root st (branchNameOf branch) := by
  simp [stepBranch, hne, h]

/-! Structural facts about the acting arms and the step. -/

theorem behindStep_deleted (a : Args) (e : Env) (root : Option (List Char))
    (st : PassSt) (name : List Char) :
    (behindStep a e root st name).1.deleted = st.deleted := by
  unfold behindStep
  split
  · split <;> rfl
  · rfl

theorem behindStep_st (a : Args) (e : Env) (root : Option (List Char))
    (st : PassSt) (name : List Char) :
    (behindStep a e root st name).1.cur = st.cur ∧
    (behindStep a e root st name).1.checkedOut = st.checkedOut := by
  unfold behindStep
  split
  · split <;> exact ⟨rfl, rfl⟩
  · exact ⟨rfl, rfl⟩

theorem goneStep_deleted_mono (a : Args) (e : Env) (root : Option (List Char))
    (st : PassSt) (name : List Char) (x : List Char) (hx : x ∈ st.deleted) :
    x ∈ (goneStep a e root st name).1.deleted := by
  unfold goneStep
  by_cases hd : a.delete = true
  · by_cases hcur : st.cur = some name
    · by_cases hdirty : e.dirty = true
      · simp [hd, hcur, hdirty, hx]
      · cases root with
        | none => simp [hd, hcur, hdirty, hx]
        | some r =>
          by_cases hsw : e.switchOK r = true
          · simp only [hd, if_pos, hcur, hdirty, Bool.false_eq_true, if_false, hsw]
            exact issueDelete_deleted_mono _ _ _ _ x hx
          · simp [hd, hcur, hdirty, hsw, hx]
    · simp only [hd, if_pos, hcur, if_false]
      exact issueDelete_deleted_mono _ _ _ _ x hx
  · simp [hd, hx]

theorem goneStep_cur_eq (a : Args) (e : Env) (root : Option (List Char))
    (st : PassSt) (name : List Char) (hst : st.cur = st.checkedOut) :
    (goneStep a e root st name).1.cur = (goneStep a e root st name).1.checkedOut := by
  unfold goneStep
  by_cases hd : a.delete = true
  · by_cases hcur : st.cur = some name
    · by_cases hdirty : e.dirty = true
      · simp [hd, hcur, hdirty, hcur.symm.trans hst]
      · cases root with
        | none => simp [hd, hcur, hdirty, hcur.symm.trans hst]
        | some r =>
          by_cases hsw : e.switchOK r = true
          · simp only [hd, if_pos, hcur, hdirty, Bool.false_eq_true, if_false, hsw]
            have h1 := issueDelete_st e { st with cur := some r, checkedOut := some r }
              name [.logGone name, .statusCheck false, .switchCmd r true]
            rw [h1.1, h1.2]
          · simp [hd, hcur, hdirty, hsw, hcur.symm.trans hst]
    · simp only [hd, if_pos, hcur, if_false]
      have h1 := issueDelete_st e st name [.logGone name]
      rw [h1.1, h1.2, hst]
  · simp [hd, hst]

theorem stepBranch_deleted_mono (a : Args) (e : Env) (root : Option (List Char))
    (st : PassSt) (branch : List Char) (x : List Char) (hx : x ∈ st.deleted) :
    x ∈ (stepBranch a e root st branch).1.deleted := by
  unfold stepBranch
  by_cases hne : firstToken branch = []
  · simp [hne, hx]
  · cases h : classify branch with
    | headMarker => simp [hne, h, hx]
    | localOnly => simp [hne, h, hx]
    | ahead => simp [hne, h, hx]
    | behind =>
      simp only [hne, if_false, h]
      rw [behindStep_deleted]
      exact hx
    | gone =>
      simp only [hne, if_false, h]
      exact goneStep_deleted_mono _ _ _ _ _ x hx
    | upToDate => simp [hne, h, hx]

theorem stepBranch_cur_eq (a : Args) (e : Env) (root : Option (List Char))
    (st : PassSt) (branch : List Char) (hst : st.cur = st.checkedOut) :
    (stepBranch a e root st branch).1.cur = (stepBranch a e root st branch).1.checkedOut := by
  unfold stepBranch
  by_cases hne : firstToken branch = []
  · simp [hne, hst]
  · cases h : classify branch with
    | headMarker => simp [hne, h, hst]
    | localOnly => simp [hne, h, hst]
    | ahead => simp [hne, h, hst]
    | behind =>
      simp only [hne, if_false, h]
      have h1 := behindStep_st a e root st (branchNameOf branch)
      rw [h1.1, h1.2, hst]
    | gone =>
      simp only [hne, if_false, h]
      exact goneStep_cur_eq _ _ _ _ _ hst
    | upToDate => simp [hne, h, hst]

theorem goneStep_guarded (a : Args) (e : Env) (root : Option (List Char))
    (st : PassSt) (name : List Char) (hd : a.delete = true) :
    name ∈ (goneStep a e root st name).1.deleted ∨
    Event.warnDirtySkip name ∈ (goneStep a e root st name).2.1 ∨
    Event.logSwitchFail name ∈ (goneStep a e root st name).2.1 ∨
    Event.logDelFail name ∈ (goneStep a e root st name).2.1 ∨
    ¬ ((goneStep a e root st name).2.2 = none) := by
  unfold goneStep
  by_cases hcur : st.cur = some name
  · by_cases hdirty : e.dirty = true
    · simp [hd, hcur, hdirty]
    · cases root with
      | none => simp [hd, hcur, hdirty]
      | some r =>
        by_cases hsw : e.switchOK r = true
        · simp only [hd, if_pos, hcur, hdirty, Bool.false_eq_true, if_false, hsw]
          rcases issueDelete_guarded e { st with cur := some r, checkedOut := some r }
              name [.logGone name, .statusCheck false, .switchCmd r true] with h | h
          · exact Or.inl h
          · exact Or.inr (Or.inr (Or.inr (Or.inl h)))
        · simp [hd, hcur, hdirty, hsw]
  · simp only [hd, if_pos, hcur, if_false]
    rcases issueDelete_guarded e st name [.logGone name] with h | h
    · exact Or.inl h
    · exact Or.inr (Or.inr (Or.inr (Or.inl h)))

theorem stepBranch_gone_guarded (a : Args) (e : Env) (root : Option (List Char))
    (st : PassSt) (branch : List Char)
    (hd : a.delete = true) (hc : classify branch = .gone) :
    branchNameOf branch ∈ (stepBranch a e root st branch).1.deleted ∨
    Event.warnDirtySkip (branchNameOf branch) ∈ (stepBranch a e root st branch).2.1 ∨
    Event.logSwitchFail (branchNameOf branch) ∈ (stepBranch a e root st branch).2.1 ∨
    Event.logDelFail (branchNameOf branch) ∈ (stepBranch a e root st branch).2.1 ∨
    ¬ ((stepBranch a e root st branch).2.2 = none) := by
  have hne := firstToken_ne_nil_of_containsSub '[' _ branch (by decide)
    (classify_gone_contains branch hc)
  rw [stepBranch_gone a e root st branch hne hc]
  exact goneStep_guarded a e root st (branchNameOf branch) hd

theorem stepBranch_c1 (a : Args) (e : Env) (root : Option (List Char))
    (st : PassSt) (branch : List Char) (hst : st.cur = st.checkedOut)
    (bb : List Char) (chk : Option (List Char)) (ok : Bool)
    (hm : Event.deleteLocalCmd bb chk ok ∈ (stepBranch a e root st branch).2.1) :
    chk ≠ some bb ∨ root = some bb := by
  unfold stepBranch at hm
  by_cases hne : firstToken branch = []
  · simp [hne] at hm
  · cases h : classify branch with
    | headMarker => simp only [hne, if_false, h] at hm; simp at hm
    | localOnly => simp only [hne, if_false, h] at hm; simp at hm
    | ahead => simp only [hne, if_false, h] at hm; simp at hm
    | upToDate => simp only [hne, if_false, h] at hm; simp at hm
    | behind =>
      simp only [hne, if_false, h] at hm
      unfold behindStep at hm
      by_cases hcond : a.ff = true ∧ root = some (branchNameOf branch)
      · rw [if_pos hcond] at hm
        by_cases hcur : st.cur = root
        · rw [if_pos hcur] at hm
          by_cases hp : e.pullOK = true <;> simp [hp] at hm
        · rw [if_neg hcur] at hm
          by_cases hp : e.fetchRootOK = true <;> simp [hp] at hm
      · rw [if_neg hcond] at hm; simp at hm
    | gone =>
      simp only [hne, if_false, h] at hm
      unfold goneStep at hm
      by_cases hd : a.delete = true
      · rw [if_pos hd] at hm
        by_cases hcur : st.cur = some (branchNameOf branch)
        · rw [if_pos hcur] at hm
          by_cases hdirty : e.dirty = true
          · rw [if_pos hdirty] at hm; simp at hm
          · rw [if_neg hdirty] at hm
            cases root with
            | none => simp at hm
            | some r =>
              dsimp only at hm
              by_cases hsw : e.switchOK r = true
              · rw [if_pos hsw, issueDelete_events] at hm
                by_cases hrb : r = bb
                · exact Or.inr (by rw [hrb])
                · left
                  by_cases hok : e.delOK (branchNameOf branch) = true <;>
                    simp [hok] at hm
                  all_goals
                    obtain ⟨-, hchk, -⟩ := hm
                  all_goals
                    rw [hchk]
                  all_goals
                    intro hx
                  all_goals
                    exact hrb (Option.some.inj hx)
              · rw [if_neg hsw] at hm; simp at hm
        · rw [if_neg hcur, issueDelete_events] at hm
          left
          by_cases hok : e.delOK (branchNameOf branch) = true <;> simp [hok] at hm
          all_goals
            obtain ⟨hbb, hchk, -⟩ := hm
          all_goals
            rw [hchk, ← hst, hbb]
          all_goals
            exact fun hx => hcur hx
      · rw [if_neg hd] at hm; simp at hm

/-! Facts about the per-branch loop. -/

theorem processBranches_deleted_mono (a : Args) (e : Env) (root : Option (List Char))
    (bs : List (List Char)) :
    ∀ st x, x ∈ st.deleted → x ∈ (processBranches a e root st bs).1.deleted := by
  induction bs with
  | nil => intro st x hx; simpa [processBranches] using hx
  | cons b bs ih =>
    intro st x hx
    simp only [processBranches]
    cases hstep : (stepBranch a e root st b).2.2 with
    | some er => exact stepBranch_deleted_mono a e root st b x hx
    | none => exact ih _ x (stepBranch_deleted_mono a e root st b x hx)

theorem processBranches_gone_guarded (a : Args) (e : Env) (root : Option (List Char))
    (hd : a.delete = true) (bs : List (List Char)) :
    ∀ st b, b ∈ bs → classify b = .gone →
      (processBranches a e root st bs).2.2 = none →
      (branchNameOf b ∈ (processBranches a e root st bs).1.deleted ∨
       Event.warnDirtySkip (branchNameOf b) ∈ (processBranches a e root st bs).2.1 ∨
       Event.logSwitchFail (branchNameOf b) ∈ (processBranches a e root st bs).2.1 ∨
       Event.logDelFail (branchNameOf b) ∈ (processBranches a e root st bs).2.1) := by
  induction bs with
  | nil => intro st b hb; simp at hb
  | cons b0 bs ih =>
    intro st b hb hc her
    simp only [processBranches] at her ⊢
    cases hstep : (stepBranch a e root st b0).2.2 with
    | some er => rw [hstep] at her; simp at her
    | none =>
      rw [hstep] at her
      rcases List.mem_cons.mp hb with hb0 | hbs
      · subst hb0
        rcases stepBranch_gone_guarded a e root st b hd hc with h | h | h | h | h
        · exact Or.inl (processBranches_deleted_mono a e root bs _ _ h)
        · exact Or.inr (Or.inl (List.mem_append.mpr (Or.inl h)))
        · exact Or.inr (Or.inr (Or.inl (List.mem_append.mpr (Or.inl h))))
        · exact Or.inr (Or.inr (Or.inr (List.mem_append.mpr (Or.inl h))))
        · exact absurd hstep h
      · rcases ih _ b hbs hc her with h | h | h | h
        · exact Or.inl h
        · exact Or.inr (Or.inl (List.mem_append.mpr (Or.inr h)))
        · exact Or.inr (Or.inr (Or.inl (List.mem_append.mpr (Or.inr h))))
        · exact Or.inr (Or.inr (Or.inr (List.mem_append.mpr (Or.inr h))))

theorem processBranches_c1 (a : Args) (e : Env) (root : Option (List Char))
    (bs : List (List Char)) :
    ∀ st, st.cur = st.checkedOut →
      ∀ bb chk ok, Event.deleteLocalCmd bb chk ok ∈ (processBranches a e root st bs).2.1 →
        chk ≠ some bb ∨ root = some bb := by
  induction bs with
  | nil => intro st _ bb chk ok hm; simp [processBranches] at hm
  | cons b0 bs ih =>
    intro st hst bb chk ok hm
    simp only [processBranches] at hm
    cases hstep : (stepBranch a e root st b0).2.2 with
    | some er =>
      rw [hstep] at hm
      exact stepBranch_c1 a e root st b0 hst bb chk ok hm
    | none =>
      rw [hstep] at hm
      rcases List.mem_append.mp hm with h | h
      · exact stepBranch_c1 a e root st b0 hst bb chk ok h
      · exact ih _ (stepBranch_cur_eq a e root st b0 hst) bb chk ok h

theorem resolutionWarnings_warn_only (a : Args) (root cur : Option (List Char))
    (bb : List Char) (chk : Option (List Char)) (ok : Bool) :
    ¬ (Event.deleteLocalCmd bb chk ok ∈ resolutionWarnings a root cur) := by
  intro h
  unfold resolutionWarnings at h
  rcases List.mem_append.mp h with h | h
  · rcases List.mem_append.mp h with h | h
    · split at h <;> simp at h
    · split at h <;> simp at h
  · split at h
    · rcases List.mem_append.mp h with h | h <;> (split at h <;> simp at h)
    · simp at h

/-- Claim C2 (amended), over a whole repository pass: with delete enabled,
every listed branch classified gone is deleted from the repository (its
name enters the set of successful deletions, hence it is absent from a
subsequent listing) unless one of the three guards fired, each with its
logged message: the branch was checked out on a dirty tree, or the switch
to the root branch failed, or the delete command itself returned
non-zero. -/
theorem goneBranchDeletedUnlessGuarded (a : Args) (e : Env) (ffA : Bool)
    (L : List (List Char)) (b : List Char) (stF : PassSt)
    (hd : a.delete = true) (hl : e.localListing = some L) (hb : b ∈ L)
    (hc : classify b = .gone)
    (her : (processPass a e ffA).2.1 = none)
    (hstF : (processPass a e ffA).2.2 = some stF) :
    branchNameOf b ∈ stF.deleted ∨
    Event.warnDirtySkip (branchNameOf b) ∈ (processPass a e ffA).1 ∨
    Event.logSwitchFail (branchNameOf b) ∈ (processPass a e ffA).1 ∨
    Event.logDelFail (branchNameOf b) ∈ (processPass a e ffA).1 := by
  by_cases hskip : (!a.noFetch && notARepo e) = true
  · simp only [processPass, passTail, hskip, if_true] at hstF
    simp at hstF
  · simp only [processPass, passTail, hskip, Bool.false_eq_true, if_false, hl] at her hstF ⊢
    simp only [Option.some.injEq] at hstF
    rcases processBranches_gone_guarded a e
        (findRootBranch L e.remoteListing) hd L
        { cur := e.curBranch, checkedOut := e.curBranch, ffAssigned := ffA, deleted := [] }
        b hb hc her with h | h | h | h
    · exact Or.inl (hstF ▸ h)
    · exact Or.inr (Or.inl (List.mem_append.mpr (Or.inr (List.mem_append.mpr (Or.inr h)))))
    · exact Or.inr (Or.inr (Or.inl
        (List.mem_append.mpr (Or.inr (List.mem_append.mpr (Or.inr h))))))
    · exact Or.inr (Or.inr (Or.inr
        (List.mem_append.mpr (Or.inr (List.mem_append.mpr (Or.inr h))))))

/-- Witness for C2 (amended): in the healthy repository the gone branch
`feat` ends up deleted. -/
theorem goneBranchDeletedUnlessGuarded_app :
    branchNameOf goneLineEx ∈ stAfterDeleteOK.deleted ∨
    Event.warnDirtySkip (branchNameOf goneLineEx) ∈ (processPass argsDelete envDeleteOK false).1 ∨
    Event.logSwitchFail (branchNameOf goneLineEx) ∈ (processPass argsDelete envDeleteOK false).1 ∨
    Event.logDelFail (branchNameOf goneLineEx) ∈ (processPass argsDelete envDeleteOK false).1 :=
  goneBranchDeletedUnlessGuarded argsDelete envDeleteOK false [goneLineEx] goneLineEx
    stAfterDeleteOK rfl rfl (by decide) (by decide) (by decide) (by decide)

/-- Counterexample to claim C2 as stated: gone branch `feat` is checked
out on a clean (not dirty) tree, delete is enabled, the pass completes
without error, and yet no branch was deleted — the branch remains because
the switch to the root branch failed, an exception the claim does not
allow. -/
theorem goneBranchRemainsAfterSwitchFailure :
    envSwitchFail.dirty = false ∧
    envSwitchFail.curBranch = some (branchNameOf goneLineEx) ∧
    classify goneLineEx = .gone ∧
    (processPass argsDelete envSwitchFail false).2.1 = none ∧
    ((processPass argsDelete envSwitchFail false).2.2.map PassSt.deleted) = some [] ∧
    Event.logSwitchFail (branchNameOf goneLineEx) ∈
      (processPass argsDelete envSwitchFail false).1 := by
  refine ⟨rfl, by decide, by decide, by decide, by decide, by decide⟩

/-- Claim C3: the code violates the claim.  In a repository whose root
branch cannot be resolved, with delete enabled, the pass logs the
repository-level warning that delete will be skipped — and then deletes
the gone branch `feat` anyway. -/
theorem deleteProceedsWithoutRoot :
    findRootBranch [goneLineEx] envNoRoot.remoteListing = none ∧
    Event.warnDeleteSkipped ∈ (processPass argsDelete envNoRoot false).1 ∧
    Event.deleteLocalCmd "feat".data (some "other".data) true ∈
      (processPass argsDelete envNoRoot false).1 ∧
    ((processPass argsDelete envNoRoot false).2.2.map PassSt.deleted) = some ["feat".data] := by
  refine ⟨by decide, by decide, by decide, by decide⟩

/-- Claim C1 (amended): whenever the pass issues a local-branch delete
command, either the branch the repository has checked out at that moment
differs from the branch being deleted (a successful switch away was
performed first when the branch had been current), or the deleted branch
is the resolved root branch itself — the one corner in which the
preceding successful switch is a vacuous self-switch and the command is
issued against the still-checked-out branch.  Remote purge commands are
`deleteRemoteCmd` events and only ever name remote-tracking refs from the
purge enumeration, never the checked-out local branch. -/
theorem deleteIssuedAwayFromCheckoutUnlessRoot (a : Args) (e : Env) (ffA : Bool)
    (L : List (List Char)) (bb : List Char) (chk : Option (List Char)) (ok : Bool)
    (hl : e.localListing = some L)
    (hm : Event.deleteLocalCmd bb chk ok ∈ (processPass a e ffA).1) :
    chk ≠ some bb ∨ findRootBranch L e.remoteListing = some bb := by
  have hpre : ¬ (Event.deleteLocalCmd bb chk ok ∈ purgeEvents a e ++ fetchEvents a) := by
    intro h
    rcases List.mem_append.mp h with h | h
    · unfold purgeEvents at h
      split at h
      · rcases List.mem_map.mp h with ⟨r, -, heq⟩
        simp at heq
      · simp at h
    · unfold fetchEvents at h
      split at h <;> simp at h
  by_cases hskip : (!a.noFetch && notARepo e) = true
  · simp only [processPass, passTail, hskip, if_true, List.append_nil] at hm
    exact absurd hm hpre
  · simp only [processPass, passTail, hskip, Bool.false_eq_true, if_false, hl] at hm
    rcases List.mem_append.mp hm with h | h
    · exact absurd h hpre
    · rcases List.mem_append.mp h with h | h
      · exact absurd h (resolutionWarnings_warn_only a _ _ bb chk ok)
      · exact processBranches_c1 a e (findRootBranch L e.remoteListing) L
          { cur := e.curBranch, checkedOut := e.curBranch, ffAssigned := ffA, deleted := [] }
          rfl bb chk ok h

/-- Witness for C1 (amended) at the healthy delete scenario: the issued
delete names `feat` while `main` is checked out. -/
theorem deleteIssuedAwayFromCheckoutUnlessRoot_app :
    some "main".data ≠ some "feat".data ∨
    findRootBranch [goneLineEx] envDeleteOK.remoteListing = some "feat".data :=
  deleteIssuedAwayFromCheckoutUnlessRoot argsDelete envDeleteOK false [goneLineEx]
    "feat".data (some "main".data) true rfl (by decide)

/-- Counterexample to claim C1 as stated: in the repository whose
checked-out branch `main` is itself the resolved root and has a gone
upstream, the pass issues the delete command for `main` while `main` is
still the checked-out branch — the only preceding switch was the vacuous
successful switch to `main` itself, not a switch away. -/
theorem rootGoneSelfSwitchDelete :
    envSelfSwitch.curBranch = some "main".data ∧
    Event.switchCmd "main".data true ∈ (processPass argsDelete envSelfSwitch false).1 ∧
    Event.deleteLocalCmd "main".data (some "main".data) false ∈
      (processPass argsDelete envSelfSwitch false).1 := by
  refine ⟨rfl, by decide, by decide⟩

/-- Claim C6: for a branch classified behind with fast-forward requested
and the branch equal to the resolved root, the step issues a
fast-forward-only pull exactly when the root is also the current branch
and otherwise a fetch writing directly into the local root ref, logs an
error on a non-zero exit (the trailing element of the event list), and
never raises — the loop and the pass always continue past this branch. -/
theorem behindRootFastForwardChoice (a : Args) (e : Env) (root : Option (List Char))
    (st : PassSt) (branch : List Char)
    (hff : a.ff = true) (hc : classify branch = .behind)
    (hroot : root = some (branchNameOf branch)) :
    (stepBranch a e root st branch).2.2 = none ∧
    (st.cur = root →
      (stepBranch a e root st branch).2.1 =
        Event.logBehind (branchNameOf branch) :: Event.ffPull e.pullOK ::
          (if e.pullOK = true then [] else [Event.logFFFail (branchNameOf branch)])) ∧
    (¬ (st.cur = root) →
      (stepBranch a e root st branch).2.1 =
        Event.logBehind (branchNameOf branch) ::
          Event.ffFetchRoot (branchNameOf branch) e.fetchRootOK ::
          (if e.fetchRootOK = true then [] else [Event.logFFFail (branchNameOf branch)])) := by
  have hne := firstToken_ne_nil_of_containsSub '[' _ branch (by decide)
    (classify_behind_contains branch hc)
  rw [stepBranch_behind a e root st branch hne hc]
  unfold behindStep
  rw [if_pos ⟨hff, hroot⟩]
  refine ⟨?_, ?_, ?_⟩
  · by_cases hcur : st.cur = root
    · rw [if_pos hcur]
    · rw [if_neg hcur]
  · intro hcur; rw [if_pos hcur]
  · intro hcur; rw [if_neg hcur]

/-- Witness for C6: with root `main` behind and checked out, a
fast-forward-only pull is issued. -/
theorem behindRootFastForwardChoice_app :
    (stepBranch argsFF envBehind (some "main".data) stBehind0 behindRootLineEx).2.2 = none ∧
    (stBehind0.cur = some "main".data →
      (stepBranch argsFF envBehind (some "main".data) stBehind0 behindRootLineEx).2.1 =
        Event.logBehind (branchNameOf behindRootLineEx) ::
          Event.ffPull envBehind.pullOK ::
          (if envBehind.pullOK = true then []
           else [Event.logFFFail (branchNameOf behindRootLineEx)])) ∧
    (¬ (stBehind0.cur = some "main".data) →
      (stepBranch argsFF envBehind (some "main".data) stBehind0 behindRootLineEx).2.1 =
        Event.logBehind (branchNameOf behindRootLineEx) ::
          Event.ffFetchRoot (branchNameOf behindRootLineEx) envBehind.fetchRootOK ::
          (if envBehind.fetchRootOK = true then []
           else [Event.logFFFail (branchNameOf behindRootLineEx)])) :=
  behindRootFastForwardChoice argsFF envBehind (some "main".data) stBehind0
    behindRootLineEx rfl (by decide) (by decide)

/-- Claim C10: with delete enabled and no fast-forward attempt made
earlier in the run, a failing delete of a gone, non-current branch makes
the script read the never-assigned `ff_result` variable: the pass stops
with a `NameError` after logging only the first failure line, and the
whole run crashes — no later repository is processed. -/
theorem unboundFFResultOnDeleteFailure (a : Args) (e : Env) (es : List Env)
    (b : List Char)
    (hd : a.delete = true) (hl : e.localListing = some [b]) (hc : classify b = .gone)
    (hcur : ¬ (e.curBranch = some (branchNameOf b)))
    (hdel : e.delOK (branchNameOf b) = false)
    (hskip : (!a.noFetch && notARepo e) = false) :
    (processPass a e false).2.1 = some .nameErr ∧
    (runMain a false (e :: es)).2 = some .nameErr ∧
    (runMain a false (e :: es)).1.length = 1 ∧
    Event.logDelFail (branchNameOf b) ∈ (processPass a e false).1 := by
  have hne := firstToken_ne_nil_of_containsSub '[' _ b (by decide)
    (classify_gone_contains b hc)
  have hstep : stepBranch a e (findRootBranch [b] e.remoteListing)
      { cur := e.curBranch, checkedOut := e.curBranch, ffAssigned := false, deleted := [] } b =
      ({ cur := e.curBranch, checkedOut := e.curBranch, ffAssigned := false, deleted := [] },
        [Event.logGone (branchNameOf b),
         Event.deleteLocalCmd (branchNameOf b) e.curBranch false,
         Event.logDelFail (branchNameOf b)], some .nameErr) := by
    rw [stepBranch_gone _ _ _ _ _ hne hc]
    simp [goneStep, issueDelete, hd, hcur, hdel]
  have hpass1 : (processPass a e false).2.1 = some .nameErr := by
    simp [processPass, passTail, hskip, hl, processBranches, hstep]
  refine ⟨hpass1, ?_, ?_, ?_⟩
  · simp [runMain, hpass1]
  · simp [runMain, hpass1]
  · simp [processPass, passTail, hskip, hl, processBranches, hstep]

/-- Witness for C10 at the repository whose delete of `feat` fails with
no prior fast-forward. -/
theorem unboundFFResultOnDeleteFailure_app :
    (processPass argsDelete envDelFail false).2.1 = some .nameErr ∧
    (runMain argsDelete false [envDelFail]).2 = some .nameErr ∧
    (runMain argsDelete false [envDelFail]).1.length = 1 ∧
    Event.logDelFail (branchNameOf goneLineEx) ∈ (processPass argsDelete envDelFail false).1 :=
  unboundFFResultOnDeleteFailure argsDelete envDelFail [] goneLineEx
    rfl rfl (by decide) (by decide) (by decide) (by decide)

end GitGarden
